import Mathlib

/-!
Verification of the AGRO-AI chatbot (web variant `app.py`, terminal variant
`chatbot.py`) against its natural-language specification.

Python strings are modelled as `List Char`.  The remote services the two
scripts call (the Gemini generation API, `pdfplumber`, speech libraries) are
modelled as oracles passed in as parameters: the LLM is a function from the
prompt to `Option (List Char)`, where `none` means the library call raised an
exception (the `try/except` in the source catches every exception), and a PDF
page's `extract_text()` result is an `Option (List Char)`, where `none` means
no extractable text (Python `None`).
-/

/-- Python `str.isspace` / the character class stripped by `str.strip()`:
ASCII whitespace (space, tab, LF, VT, FF, CR), the C1 separators 0x1c-0x1f,
NEL 0x85, NBSP 0xa0, and the Unicode space separators. -/
def pyIsSpace (c : Char) : Bool :=
  c == ' ' || c == '\t' || c == '\n' ||
  (0x0b ≤ c.val && c.val ≤ 0x0d) || (0x1c ≤ c.val && c.val ≤ 0x1f) ||
  c.val == 0x85 || c.val == 0xa0 || c.val == 0x1680 ||
  (0x2000 ≤ c.val && c.val ≤ 0x200a) ||
  c.val == 0x2028 || c.val == 0x2029 || c.val == 0x202f ||
  c.val == 0x205f || c.val == 0x3000

/-- Python `str.lstrip()`: drop leading whitespace. -/
def lstrip (l : List Char) : List Char := l.dropWhile pyIsSpace

/-- Python `str.rstrip()`: drop trailing whitespace. -/
def rstrip (l : List Char) : List Char := (l.reverse.dropWhile pyIsSpace).reverse

/-- Python `str.strip()`: drop whitespace from both ends. -/
def pyStrip (l : List Char) : List Char := lstrip (rstrip l)

/-- Python `str.split('\n')`: split on every newline; never returns `[]`,
and `''.split('\n') == ['']`. -/
def splitLines : List Char → List (List Char)
  | [] => [[]]
  | c :: rest =>
    if c = '\n' then [] :: splitLines rest
    else
      match splitLines rest with
      | [] => [[c]]
      | l :: ls => (c :: l) :: ls

/-- Python `s.split('\n')[-1]`: the last element of the split. -/
def lastLine (l : List Char) : List Char := (splitLines l).getLastD []

/-- Scanner for Python `s.replace(pat, '')`: walk the string one character at
a time; `skip` counts characters of an already-matched occurrence still to be
consumed without being emitted.  At `skip = 0`, a position where `pat` is a
prefix starts a deletion of `pat.length` characters; otherwise the character
is kept.  This is the left-to-right, non-overlapping scan of `str.replace`. -/
def raGo (pat : List Char) : Nat → List Char → List Char
  | _, [] => []
  | Nat.succ k, _ :: rest => raGo pat k rest
  | 0, c :: rest =>
    if pat ≠ [] ∧ pat.isPrefixOf (c :: rest) = true then
      raGo pat (pat.length - 1) rest
    else
      c :: raGo pat 0 rest

/-- Python `s.replace(pat, '')`: delete every occurrence of `pat`, scanning
left to right, non-overlapping. -/
def replaceAll (pat : List Char) (l : List Char) : List Char := raGo pat 0 l

/-- Python `pat in s` (substring containment): scan every suffix for the
pattern as a prefix. -/
def strContains (l pat : List Char) : Bool :=
  match l with
  | [] => pat.isEmpty
  | c :: rest => pat.isPrefixOf (c :: rest) || strContains rest pat

/-- The Malayalam marker token `[lang:ml]`. -/
def tokML : List Char := ("[lang:ml]").data

/-- The English marker token `[lang:en]`. -/
def tokEN : List Char := ("[lang:en]").data

/-- `bot_response_text.strip().split('\n')[-1]` — the `lang_match` value the
web handler computes (app.py line 105). -/
def langMatch (bot_response_text : List Char) : List Char :=
  lastLine (pyStrip bot_response_text)

/-- The response post-processor of the web handler (app.py lines 103-111):
inspect the last line of the stripped reply for a marker token; on a match
delete every occurrence of that token from the reply and strip, else leave the
reply unchanged.  Returns `(response_text, lang)`. -/
def chatPostProcess (bot_response_text : List Char) : List Char × String :=
  let lang_match := langMatch bot_response_text
  if strContains lang_match tokML then
    (pyStrip (replaceAll tokML bot_response_text), "ml")
  else if strContains lang_match tokEN then
    (pyStrip (replaceAll tokEN bot_response_text), "en")
  else
    (bot_response_text, "en")

/-- The final non-blank line of a reply: the last element of the split that
is not made of whitespace only (the "final non-empty line" of the spec). -/
def finalNonBlankLine (reply : List Char) : Option (List Char) :=
  (splitLines reply).reverse.find? (fun L => !(L.all pyIsSpace))

/-- The final non-blank line, when there is one, contains neither marker
token: the hypothesis of the no-marker clause of the post-processor
contract. -/
def noMarkerInFinalLine (reply : List Char) : Bool :=
  match finalNonBlankLine reply with
  | none => true
  | some L => !(strContains L tokML) && !(strContains L tokEN)

/-- A JSON value as Flask's `request.get_json()` delivers it (floats are not
needed by any claim and are omitted). -/
inductive JVal
  | jnull
  | jbool (b : Bool)
  | jnum (n : Int)
  | jstr (s : List Char)
deriving DecidableEq

/-- Python truthiness of `data.get('query')`: `None` (absent key or JSON
null), `False`, `0` and `''` are falsy. -/
def pyTruthy : Option JVal → Bool
  | none => false
  | some JVal.jnull => false
  | some (JVal.jbool b) => b
  | some (JVal.jnum n) => n != 0
  | some (JVal.jstr s) => !s.isEmpty

/-- Python `str(x)` on such a value, as an f-string would format it. -/
def pyToString : Option JVal → List Char
  | none => ("None").data
  | some JVal.jnull => ("None").data
  | some (JVal.jbool true) => ("True").data
  | some (JVal.jbool false) => ("False").data
  | some (JVal.jnum n) => (toString n).data
  | some (JVal.jstr s) => s

/-- The JSON payload a `/chat` response carries: either exactly an `error`
field, or exactly the two fields `response` and `lang`. -/
inductive ChatPayload
  | errorField (msg : List Char)
  | okFields (response : List Char) (lang : String)
deriving DecidableEq

namespace App

/-- The `system_prompt` literal of app.py lines 68-74.  The source defines it
inside `get_gemini_response` but never uses it: the call to
`model.generate_content` receives only `full_prompt`. -/
def systemPromptWeb : List Char :=
  ("You are \x27Krishi Sakhi\x27, a friendly and knowledgeable AI farming assistant for farmers in Kerala, India.\n- Your purpose is to answer farming-related questions.\n- Analyze the user\x27s query to determine if it is in English or Malayalam. Your final response MUST be in the same language.\n- After your main answer, add a language tag on a new line, like this: [lang:ml] for Malayalam or [lang:en] for English. This tag is for the application and should not be spoken.\n- Prioritize using the information from the \x27CONTEXT FROM DOCUMENTS\x27 section to answer.\n- If the documents don\x27t have the answer, use your general knowledge.\n- Keep your answers clear, concise, and easy for a farmer to understand.").data

/-- `full_prompt` of app.py line 76 (chatbot.py line 118 is identical):
`f"CONTEXT FROM DOCUMENTS:\n---\n{context}\n---\n\nFARMER'S QUERY:\n{user_query}"`. -/
def full_prompt (context user_query : List Char) : List Char :=
  ("CONTEXT FROM DOCUMENTS:\n---\n").data ++ context ++
    ("\n---\n\nFARMER\x27S QUERY:\n").data ++ user_query

/-- The prompt string app.py actually passes to `model.generate_content`
(line 80): it is `full_prompt` alone; `system_prompt` is not part of it. -/
def promptSentWeb (context user_query : List Char) : List Char :=
  full_prompt context user_query

/-- The fallback string of app.py line 86. -/
def apologyWeb : List Char :=
  ("Sorry, I am having trouble connecting to my brain right now. Please try again later. [lang:en]").data

/-- `get_gemini_response` of app.py lines 66-86.  `llm` is the generation
API: applied to the prompt it returns the reply text, or `none` when the call
raises; the `except` branch then returns the fixed apology. -/
def get_gemini_response (llm : List Char → Option (List Char))
    (user_query context : List Char) : List Char :=
  match llm (promptSentWeb context user_query) with
  | some text => text
  | none => apologyWeb

/-- The 400-payload message of app.py line 98. -/
def errNoQuery : List Char := ("No query provided").data

/-- The `/chat` handler of app.py lines 90-113, with the module global
`pdf_context` threaded explicitly: the handler body contains no assignment to
it, so every return site passes it through unchanged.  The JSON body is
abstracted to its `query` field (`data.get('query')`).  Returns the new value
of `pdf_context`, the HTTP status, and the JSON payload. -/
def chat (pdf_context : List Char) (llm : List Char → Option (List Char))
    (queryField : Option JVal) : List Char × Nat × ChatPayload :=
  let user_query := queryField
  if pyTruthy user_query = false then
    (pdf_context, 400, ChatPayload.errorField errNoQuery)
  else
    let bot_response_text := get_gemini_response llm (pyToString user_query) pdf_context
    let pr := chatPostProcess bot_response_text
    (pdf_context, 200, ChatPayload.okFields pr.1 pr.2)

end App

namespace Chatbot

/-- The `system_prompt` literal of chatbot.py lines 108-116 (the indentation
and the trailing newline-plus-spaces are part of the Python triple-quoted
string).  It contains no instruction about a language marker token. -/
def systemPromptTerminal : List Char :=
  ("You are \x27Agro AI\x27, a friendly and knowledgeable AI farming assistant for farmers in Kerala, India. Your purpose is to answer farming-related questions.\n\n    Follow these rules carefully:\n    1.  Analyze the user\x27s query to determine if it is in English or Malayalam. Your final response MUST be in the same language.\n    2.  Prioritize using the information from the \x27CONTEXT FROM DOCUMENTS\x27 section to answer the question, as this is specific to the user.\n    3.  If the documents do not contain the answer, you should use your general knowledge to provide the most helpful and accurate response possible.\n    4.  When using general knowledge, you can optionally state that the specific information wasn\x27t in the uploaded documents.\n    5.  Keep your answers clear, concise, and easy for a farmer to understand.\n    ").data

/-- `combined_prompt` of chatbot.py line 122: the prompt the terminal variant
passes to `model.generate_content` is `f"{system_prompt}\n\n{full_prompt}"`. -/
def promptSentTerminal (context user_query : List Char) : List Char :=
  systemPromptTerminal ++ ("\n\n").data ++ App.full_prompt context user_query

/-- The fallback string of chatbot.py line 136 — unlike the web variant's, it
carries no language marker. -/
def apologyTerminal : List Char :=
  ("Sorry, I am having trouble connecting to my brain right now. Please try again later.").data

/-- `get_gemini_response` of chatbot.py lines 106-136. -/
def get_gemini_response (llm : List Char → Option (List Char))
    (user_query context : List Char) : List Char :=
  match llm (promptSentTerminal context user_query) with
  | some text => text
  | none => apologyTerminal

/-- One PDF file as `extract_text_from_pdfs` sees it: `unreadable` when
`pdfplumber.open(path)` raises (missing or corrupt file), else the list of
its pages' `extract_text()` results (`none` = no extractable text, Python
`None`). -/
inductive PdfFile
  | unreadable
  | doc (pages : List (Option (List Char)))
deriving DecidableEq

/-- The page loop of chatbot.py lines 50-51: `full_text += page.extract_text()
+ "\n"` for each page.  A page whose `extract_text()` is `None` makes the `+`
raise `TypeError` before appending, so the accumulated text so far is kept and
the per-file `except` reports the file as failed (`false`). -/
def processPages (full_text : List Char) :
    List (Option (List Char)) → List Char × Bool
  | [] => (full_text, true)
  | some t :: rest => processPages (full_text ++ t ++ ['\n']) rest
  | none :: _ => (full_text, false)

/-- The file loop of `extract_text_from_pdfs` (chatbot.py lines 47-54),
threading `full_text` across files and recording each file's success. -/
def extractGo (full_text : List Char) : List PdfFile → List Char × List Bool
  | [] => (full_text, [])
  | PdfFile.unreadable :: rest =>
    let r := extractGo full_text rest
    (r.1, false :: r.2)
  | PdfFile.doc pages :: rest =>
    let fr := processPages full_text pages
    let r := extractGo fr.1 rest
    (r.1, fr.2 :: r.2)

/-- `extract_text_from_pdfs` of chatbot.py lines 43-56: the aggregated text
together with the per-file success reports (the `print`ed per-file lines). -/
def extract_text_from_pdfs (pdf_paths : List PdfFile) : List Char × List Bool :=
  extractGo [] pdf_paths

/-- The text a single file contributes on its own. -/
def fileText : PdfFile → List Char
  | PdfFile.unreadable => []
  | PdfFile.doc pages => (processPages [] pages).1

/-- The success report a single file produces on its own. -/
def fileOk : PdfFile → Bool
  | PdfFile.unreadable => false
  | PdfFile.doc pages => (processPages [] pages).2

/-- The document loader as the claim describes it (pages with no extractable
text are SKIPPED and the file still succeeds); written from the claim's words
only, to be compared with `extract_text_from_pdfs`. -/
def processPagesSkipping (full_text : List Char) :
    List (Option (List Char)) → List Char
  | [] => full_text
  | some t :: rest => processPagesSkipping (full_text ++ t ++ ['\n']) rest
  | none :: rest => processPagesSkipping full_text rest

/-- Batch version of the claim-described loader: a `none` page is skipped
(not a failure); only an unreadable file is reported as failed. -/
def extractSkipping (full_text : List Char) : List PdfFile → List Char × List Bool
  | [] => (full_text, [])
  | PdfFile.unreadable :: rest =>
    let r := extractSkipping full_text rest
    (r.1, false :: r.2)
  | PdfFile.doc pages :: rest =>
    let r := extractSkipping (processPagesSkipping full_text pages) rest
    (r.1, true :: r.2)

/-- One turn's worth of input for the terminal loop of chatbot.py lines
174-200: the exit sentinel, the speak sentinel (with the recognizer's result,
`none` when both recognition attempts failed), or typed text together with
`langdetect.detect`'s result (`none` when it raised `LangDetectException`). -/
inductive TurnInput
  | exitInput
  | speak (heard : Option (List Char × String))
  | typed (text : List Char) (detected : Option String)

/-- One iteration of the terminal conversation loop (chatbot.py lines
174-200), with the local `knowledge_context` threaded explicitly: the loop
body contains no assignment to it.  Returns the new value of
`knowledge_context` and the `(bot_response, lang)` pair handed to
`speak_response`, if any. -/
def mainLoopTurn (knowledge_context : List Char)
    (llm : List Char → Option (List Char)) (inp : TurnInput) :
    List Char × Option (List Char × String) :=
  match inp with
  | TurnInput.exitInput => (knowledge_context, none)
  | TurnInput.speak none => (knowledge_context, none)
  | TurnInput.speak (some (query, lang)) =>
    (knowledge_context, some (get_gemini_response llm query knowledge_context, lang))
  | TurnInput.typed query detected =>
    let lang := if detected = some "ml" then "ml" else "en"
    (knowledge_context, some (get_gemini_response llm query knowledge_context, lang))

end Chatbot

/-! ### Basic lemmas about the Python string primitives -/

/-- `Bool` predicate for characters other than newline. -/
def notNL (c : Char) : Bool := !(c == '\n')

lemma notNL_iff {c : Char} : notNL c = true ↔ c ≠ '\n' := by
  simp [notNL]

lemma splitLines_ne_nil (l : List Char) : splitLines l ≠ [] := by
  induction l with
  | nil => simp [splitLines]
  | cons c rest ih =>
    by_cases h : c = '\n'
    · simp [splitLines, h]
    · simp only [splitLines, if_neg h]
      cases hs : splitLines rest with
      | nil => exact absurd hs ih
      | cons a as => simp

lemma splitLines_cons_nl (v : List Char) : splitLines ('\n' :: v) = [] :: splitLines v := by
  simp [splitLines]

lemma splitLines_cons_of_ne (c : Char) (v : List Char) (hc : c ≠ '\n') :
    ∃ l ls, splitLines v = l :: ls ∧ splitLines (c :: v) = (c :: l) :: ls := by
  cases hs : splitLines v with
  | nil => exact absurd hs (splitLines_ne_nil v)
  | cons l ls => exact ⟨l, ls, rfl, by simp [splitLines, hc, hs]⟩

lemma splitLines_eq_single {l : List Char} (h : '\n' ∉ l) : splitLines l = [l] := by
  induction l with
  | nil => rfl
  | cons c rest ih =>
    have hc : ¬ c = '\n' := fun e => h (by simp [e])
    have hr : '\n' ∉ rest := fun m => h (List.mem_cons_of_mem _ m)
    obtain ⟨l2, ls, hv, hcv⟩ := splitLines_cons_of_ne c rest hc
    rw [hcv]
    rw [ih hr] at hv
    injection hv with h1 h2
    subst h1
    subst h2
    rfl

lemma splitLines_append_cons {L : List Char} (t : List Char) (h : '\n' ∉ L) :
    splitLines (L ++ '\n' :: t) = L :: splitLines t := by
  induction L with
  | nil =>
    rw [List.nil_append, splitLines_cons_nl]
  | cons c rest ih =>
    have hc : c ≠ '\n' := fun e => h (by simp [e])
    have hr : '\n' ∉ rest := fun m => h (List.mem_cons_of_mem _ m)
    rw [List.cons_append]
    obtain ⟨l, ls, hv, hcv⟩ := splitLines_cons_of_ne c (rest ++ '\n' :: t) hc
    rw [hcv]
    rw [ih hr] at hv
    injection hv with h1 h2
    subst h1
    subst h2
    rfl

lemma two_le_splitLines {z : List Char} (h : '\n' ∈ z) : 2 ≤ (splitLines z).length := by
  induction z with
  | nil => simp at h
  | cons c rest ih =>
    by_cases hc : c = '\n'
    · subst hc
      rw [splitLines_cons_nl]
      have h1 : 0 < (splitLines rest).length := List.length_pos.mpr (splitLines_ne_nil rest)
      simp only [List.length_cons]
      omega
    · have hr : '\n' ∈ rest := by
        rcases List.mem_cons.mp h with e | m
        · exact absurd e.symm hc
        · exact m
      obtain ⟨l, ls, hv, hcv⟩ := splitLines_cons_of_ne c rest hc
      rw [hcv]
      have h2 := ih hr
      rw [hv] at h2
      simpa using h2

lemma getLastD_congr {α : Type} {as : List α} (h : as ≠ []) (x y : α) :
    as.getLastD x = as.getLastD y := by
  cases as with
  | nil => exact absurd rfl h
  | cons a t => rw [List.getLastD_cons, List.getLastD_cons]

lemma mem_splitLines_subset : ∀ (z : List Char) (L : List Char), L ∈ splitLines z →
    ∀ c ∈ L, c ∈ z := by
  intro z
  induction z with
  | nil =>
    intro L hL c hc
    simp [splitLines] at hL
    subst hL
    simp at hc
  | cons a rest ih =>
    intro L hL c hc
    by_cases ha : a = '\n'
    · subst ha
      rw [splitLines_cons_nl] at hL
      rcases List.mem_cons.mp hL with e | m
      · subst e; simp at hc
      · exact List.mem_cons_of_mem _ (ih L m c hc)
    · obtain ⟨l, ls, hv, hcv⟩ := splitLines_cons_of_ne a rest ha
      rw [hcv] at hL
      rcases List.mem_cons.mp hL with e | m
      · subst e
        rcases List.mem_cons.mp hc with e2 | m2
        · simp [e2]
        · exact List.mem_cons_of_mem _ (ih l (by rw [hv]; exact List.mem_cons_self _ _) c m2)
      · exact List.mem_cons_of_mem _ (ih L (by rw [hv]; exact List.mem_cons_of_mem _ m) c hc)

lemma lastLine_append_nl (u v : List Char) : lastLine (u ++ '\n' :: v) = lastLine v := by
  induction u with
  | nil =>
    rw [List.nil_append]
    unfold lastLine
    rw [splitLines_cons_nl, List.getLastD_cons]
  | cons c u2 ih =>
    by_cases hc : c = '\n'
    · subst hc
      rw [List.cons_append]
      unfold lastLine
      rw [splitLines_cons_nl, List.getLastD_cons]
      have h3 := ih
      unfold lastLine at h3
      exact h3
    · rw [List.cons_append]
      obtain ⟨l, ls, hv, hcv⟩ := splitLines_cons_of_ne c (u2 ++ '\n' :: v) hc
      unfold lastLine
      rw [hcv]
      have h2 : 2 ≤ (splitLines (u2 ++ '\n' :: v)).length := two_le_splitLines (by simp)
      rw [hv] at h2
      have hls : ls ≠ [] := by
        intro e; rw [e] at h2; simp at h2
      have ihv : (l :: ls).getLastD [] = lastLine v := by
        have h3 := ih
        unfold lastLine at h3
        rw [hv] at h3
        exact h3
      rw [List.getLastD_cons] at ihv ⊢
      rw [getLastD_congr hls (c :: l) l]
      exact ihv

lemma takeWhile_eq_self {p : Char → Bool} {x : List Char} (h : ∀ c ∈ x, p c = true) :
    x.takeWhile p = x := by
  induction x with
  | nil => rfl
  | cons c rest ih =>
    rw [List.takeWhile_cons, if_pos (h c (List.mem_cons_self _ _))]
    rw [ih (fun d hd => h d (List.mem_cons_of_mem _ hd))]

lemma takeWhile_append_of_all {p : Char → Bool} {x : List Char} (y : List Char)
    (h : ∀ c ∈ x, p c = true) : (x ++ y).takeWhile p = x ++ y.takeWhile p := by
  induction x with
  | nil => rfl
  | cons c rest ih =>
    rw [List.cons_append, List.takeWhile_cons, if_pos (h c (List.mem_cons_self _ _))]
    rw [ih (fun d hd => h d (List.mem_cons_of_mem _ hd)), List.cons_append]

lemma takeWhile_append_stop {p : Char → Bool} {x : List Char} (y : List Char)
    (h : ∃ c ∈ x, p c = false) : (x ++ y).takeWhile p = x.takeWhile p := by
  induction x with
  | nil => simp at h
  | cons c rest ih =>
    rw [List.cons_append, List.takeWhile_cons, List.takeWhile_cons]
    cases hc : p c with
    | false => rfl
    | true =>
      rw [ih]
      rcases h with ⟨d, hd, hpd⟩
      rcases List.mem_cons.mp hd with e | m
      · subst e; rw [hc] at hpd; cases hpd
      · exact ⟨d, m, hpd⟩

lemma takeWhile_nnl_append (u w : List Char) :
    (u ++ '\n' :: w).takeWhile notNL = u.takeWhile notNL := by
  by_cases h : ∀ c ∈ u, notNL c = true
  · rw [takeWhile_append_of_all _ h, List.takeWhile_cons]
    simp [notNL, takeWhile_eq_self h]
  · push_neg at h
    rcases h with ⟨c, hc, hpc⟩
    exact takeWhile_append_stop _ ⟨c, hc, by simpa using hpc⟩

lemma dropWhile_append_all {p : Char → Bool} {x : List Char} (y : List Char)
    (h : ∀ c ∈ x, p c = true) : (x ++ y).dropWhile p = y.dropWhile p := by
  induction x with
  | nil => rfl
  | cons c rest ih =>
    rw [List.cons_append, List.dropWhile_cons, if_pos (h c (List.mem_cons_self _ _))]
    exact ih (fun d hd => h d (List.mem_cons_of_mem _ hd))

lemma dropWhile_append_stop {p : Char → Bool} {x : List Char} (y : List Char)
    (h : ∃ c ∈ x, p c = false) : (x ++ y).dropWhile p = x.dropWhile p ++ y := by
  induction x with
  | nil => simp at h
  | cons c rest ih =>
    rw [List.cons_append, List.dropWhile_cons, List.dropWhile_cons]
    cases hc : p c with
    | false => simp
    | true =>
      rw [if_pos rfl, if_pos rfl, ih]
      rcases h with ⟨d, hd, hpd⟩
      rcases List.mem_cons.mp hd with e | m
      · subst e; rw [hc] at hpd; cases hpd
      · exact ⟨d, m, hpd⟩

lemma all_takeWhile_of_all {p q : Char → Bool} {x : List Char} (h : x.all p = true) :
    (x.takeWhile q).all p = true := by
  rw [List.all_eq_true] at h ⊢
  intro c hc
  have hx : c ∈ x := by
    conv_rhs at hc => skip
    have := List.takeWhile_append_dropWhile q x
    rw [← this]
    exact List.mem_append_left _ hc
  exact h c hx

lemma mem_of_mem_dropWhile {p : Char → Bool} {x : List Char} {c : Char}
    (h : c ∈ x.dropWhile p) : c ∈ x := by
  have := List.takeWhile_append_dropWhile p x
  rw [← this]
  exact List.mem_append_right _ h

/-! ### Prefix / substring-containment bridges and infix machinery -/

lemma isPrefixOf_decomp {l₁ l₂ : List Char} :
    l₁.isPrefixOf l₂ = true ↔ ∃ t, l₂ = l₁ ++ t := by
  induction l₁ generalizing l₂ with
  | nil =>
    simp [List.isPrefixOf]
  | cons a as ih =>
    cases l₂ with
    | nil => simp [List.isPrefixOf]
    | cons b bs =>
      rw [List.isPrefixOf_cons₂]
      constructor
      · intro h
        rcases Bool.and_eq_true_iff.mp h with ⟨h1, h2⟩
        obtain ⟨t, ht⟩ := ih.mp h2
        exact ⟨t, by rw [List.cons_append, ht, beq_iff_eq.mp h1]⟩
      · rintro ⟨t, ht⟩
        rw [List.cons_append] at ht
        injection ht with h1 h2
        apply Bool.and_eq_true_iff.mpr
        exact ⟨beq_iff_eq.mpr h1.symm, ih.mpr ⟨t, h2⟩⟩

lemma infixRev {l₁ l₂ : List Char} : l₁.reverse <:+: l₂.reverse ↔ l₁ <:+: l₂ :=
  List.reverse_infix

lemma infixNilEq {l : List Char} (h : l <:+: ([] : List Char)) : l = [] := by
  obtain ⟨u, v, huv⟩ := h
  rcases (List.append_eq_nil.mp huv) with ⟨h1, h2⟩
  exact (List.append_eq_nil.mp h1).2

lemma infixConsOf {l t : List Char} (a : Char) (h : l <:+: t) : l <:+: a :: t := by
  obtain ⟨u, v, huv⟩ := h
  exact ⟨a :: u, v, by rw [List.cons_append, List.cons_append, huv]⟩

lemma infixOfMiddle (a l b : List Char) : l <:+: a ++ l ++ b := ⟨a, b, rfl⟩

lemma prefixToInfix {l t : List Char} (h : l <+: t) : l <:+: t := by
  obtain ⟨v, hv⟩ := h
  exact ⟨[], v, by simpa using hv⟩

lemma strContains_iff {l pat : List Char} : strContains l pat = true ↔ pat <:+: l := by
  induction l with
  | nil =>
    constructor
    · intro h
      have : pat = [] := by
        cases pat with
        | nil => rfl
        | cons a as => simp [strContains, List.isEmpty] at h
      subst this
      exact ⟨[], [], rfl⟩
    · intro h
      rw [infixNilEq h]
      rfl
  | cons c rest ih =>
    constructor
    · intro h
      rcases Bool.or_eq_true_iff.mp h with h1 | h2
      · obtain ⟨t, ht⟩ := isPrefixOf_decomp.mp h1
        exact ⟨[], t, by rw [List.nil_append, ht]⟩
      · exact infixConsOf c (ih.mp h2)
    · intro h
      rcases List.infix_cons_iff.mp h with h1 | h2
      · obtain ⟨v, hv⟩ := h1
        apply Bool.or_eq_true_iff.mpr
        exact Or.inl (isPrefixOf_decomp.mpr ⟨v, hv.symm⟩)
      · exact Bool.or_eq_true_iff.mpr (Or.inr (ih.mpr h2))

lemma infix_append_singleton {t x : List Char} {a : Char}
    (ht : t ≠ []) (htp : t.all (fun c => !pyIsSpace c) = true) (ha : pyIsSpace a = true) :
    t <:+: x ++ [a] ↔ t <:+: x := by
  constructor
  · rintro ⟨u, v, huv⟩
    rcases List.eq_nil_or_concat v with rfl | ⟨v2, b, hv⟩
    · rcases List.eq_nil_or_concat t with rfl | ⟨t2, c, htc⟩
      · exact absurd rfl ht
      · rw [htc, List.concat_eq_append] at huv
        rw [List.append_nil, ← List.append_assoc] at huv
        have hinj := List.append_inj' huv (by simp)
        have hca : c = a := by
          have := hinj.2
          injection this
        have hcmem : c ∈ t := by rw [htc, List.concat_eq_append]; simp
        have := List.all_eq_true.mp htp c hcmem
        rw [hca, ha] at this
        simp at this
    · rw [hv, List.concat_eq_append, ← List.append_assoc] at huv
      have hinj := List.append_inj' huv (by simp)
      exact ⟨u, v2, hinj.1⟩
  · rintro ⟨u, v, huv⟩
    exact ⟨u, v ++ [a], by rw [← huv]; simp⟩

lemma infix_append_ws : ∀ (n : Nat) (e t x : List Char), e.length ≤ n → t ≠ [] →
    t.all (fun c => !pyIsSpace c) = true → e.all pyIsSpace = true →
    (t <:+: x ++ e ↔ t <:+: x) := by
  intro n
  induction n with
  | zero =>
    intro e t x hlen ht htp he
    have : e = [] := List.length_eq_zero.mp (Nat.le_zero.mp hlen)
    subst this
    simp
  | succ n ih =>
    intro e t x hlen ht htp he
    rcases List.eq_nil_or_concat e with rfl | ⟨e2, a, hea⟩
    · simp
    · subst hea
      rw [List.concat_eq_append, ← List.append_assoc]
      have he2 : e2.all pyIsSpace = true := by
        rw [List.concat_eq_append, List.all_append] at he
        exact (Bool.and_eq_true_iff.mp he).1
      have ha : pyIsSpace a = true := by
        rw [List.concat_eq_append, List.all_append] at he
        have := (Bool.and_eq_true_iff.mp he).2
        simpa using this
      have hlen2 : e2.length ≤ n := by
        rw [List.concat_eq_append, List.length_append] at hlen
        simpa using Nat.le_of_succ_le_succ (by simpa using hlen)
      rw [infix_append_singleton ht htp ha]
      exact ih e2 t x hlen2 ht htp he2

lemma infix_ws_right {t x e : List Char} (ht : t ≠ [])
    (htp : t.all (fun c => !pyIsSpace c) = true) (he : e.all pyIsSpace = true) :
    t <:+: x ++ e ↔ t <:+: x :=
  infix_append_ws e.length e t x le_rfl ht htp he

lemma infix_ws_left {t x e : List Char} (ht : t ≠ [])
    (htp : t.all (fun c => !pyIsSpace c) = true) (he : e.all pyIsSpace = true) :
    t <:+: e ++ x ↔ t <:+: x := by
  have h1 : t <:+: e ++ x ↔ t.reverse <:+: (e ++ x).reverse := infixRev.symm
  rw [h1, List.reverse_append]
  have h2 : t.reverse <:+: x.reverse ++ e.reverse ↔ t.reverse <:+: x.reverse := by
    apply infix_ws_right
    · simpa using ht
    · rw [List.all_reverse]; exact htp
    · rw [List.all_reverse]; exact he
  rw [h2]
  exact infixRev

/-! ### Normal forms for stripping and line extraction -/

lemma lastNewline_decomp {z : List Char} (h : '\n' ∈ z) :
    ∃ u v, z = u ++ '\n' :: v ∧ '\n' ∉ v := by
  induction z with
  | nil => simp at h
  | cons c rest ih =>
    by_cases hr : '\n' ∈ rest
    · obtain ⟨u, v, he, hv⟩ := ih hr
      exact ⟨c :: u, v, by rw [he, List.cons_append], hv⟩
    · have hc : c = '\n' := by
        rcases List.mem_cons.mp h with e | m
        · exact e.symm
        · exact absurd m hr
      exact ⟨[], rest, by rw [hc, List.nil_append], hr⟩

lemma firstNewline_decomp {z : List Char} (h : '\n' ∈ z) :
    ∃ f rest, z = f ++ '\n' :: rest ∧ '\n' ∉ f := by
  induction z with
  | nil => simp at h
  | cons c rest ih =>
    by_cases hc : c = '\n'
    · exact ⟨[], rest, by rw [hc, List.nil_append], by simp⟩
    · have hr : '\n' ∈ rest := by
        rcases List.mem_cons.mp h with e | m
        · exact absurd e.symm hc
        · exact m
      obtain ⟨f, r2, he, hf⟩ := ih hr
      refine ⟨c :: f, r2, by rw [he, List.cons_append], ?_⟩
      intro m
      rcases List.mem_cons.mp m with e | m2
      · exact hc e.symm
      · exact hf m2

lemma lastLine_eq_rev (z : List Char) :
    lastLine z = (z.reverse.takeWhile notNL).reverse := by
  by_cases h : '\n' ∈ z
  · obtain ⟨u, v, he, hv⟩ := lastNewline_decomp h
    subst he
    rw [lastLine_append_nl]
    have h1 : lastLine v = v := by
      unfold lastLine
      rw [splitLines_eq_single hv]
      rfl
    rw [h1]
    rw [List.reverse_append, List.reverse_cons, List.append_assoc]
    rw [takeWhile_append_of_all _ (fun c hc => notNL_iff.mpr (fun e => hv (by rw [← e]; exact List.mem_reverse.mp hc)))]
    rw [List.singleton_append, List.takeWhile_cons]
    have : notNL '\n' = false := by simp [notNL]
    rw [this]
    simp
  · have h1 : lastLine z = z := by
      unfold lastLine
      rw [splitLines_eq_single h]
      rfl
    rw [h1]
    rw [takeWhile_eq_self (fun c hc => notNL_iff.mpr (fun e => h (by rw [← e]; exact List.mem_reverse.mp hc)))]
    rw [List.reverse_reverse]

lemma strip_decomp (z : List Char) : ∃ a b, a.all pyIsSpace = true ∧
    b.all pyIsSpace = true ∧ z = a ++ pyStrip z ++ b := by
  refine ⟨(rstrip z).takeWhile pyIsSpace, (z.reverse.takeWhile pyIsSpace).reverse, ?_, ?_, ?_⟩
  · apply List.all_eq_true.mpr
    intro c hc
    exact List.mem_takeWhile_imp hc
  · rw [List.all_reverse]
    apply List.all_eq_true.mpr
    intro c hc
    exact List.mem_takeWhile_imp hc
  · have h2 : z = rstrip z ++ (z.reverse.takeWhile pyIsSpace).reverse := by
      have h1 : z.reverse = z.reverse.takeWhile pyIsSpace ++ z.reverse.dropWhile pyIsSpace :=
        (List.takeWhile_append_dropWhile pyIsSpace z.reverse).symm
      calc z = z.reverse.reverse := (List.reverse_reverse z).symm
        _ = (z.reverse.takeWhile pyIsSpace ++ z.reverse.dropWhile pyIsSpace).reverse := by
              rw [← h1]
        _ = (z.reverse.dropWhile pyIsSpace).reverse ++ (z.reverse.takeWhile pyIsSpace).reverse := by
              rw [List.reverse_append]
        _ = rstrip z ++ (z.reverse.takeWhile pyIsSpace).reverse := rfl
    have h3 : rstrip z = (rstrip z).takeWhile pyIsSpace ++ pyStrip z :=
      (List.takeWhile_append_dropWhile pyIsSpace (rstrip z)).symm
    calc z = rstrip z ++ (z.reverse.takeWhile pyIsSpace).reverse := h2
      _ = ((rstrip z).takeWhile pyIsSpace ++ pyStrip z) ++ (z.reverse.takeWhile pyIsSpace).reverse := by
            rw [← h3]

lemma bool_of_not_true {b : Bool} (h : ¬ b = true) : b = false := by
  cases b
  · rfl
  · exact absurd rfl h

lemma exists_false_of_all_false {p : Char → Bool} {l : List Char}
    (h : l.all p = false) : ∃ c ∈ l, p c = false := by
  induction l with
  | nil => simp [List.all_nil] at h
  | cons a t ih =>
    rw [List.all_cons] at h
    cases ha : p a with
    | false => exact ⟨a, List.mem_cons_self _ _, ha⟩
    | true =>
      rw [ha, Bool.true_and] at h
      obtain ⟨c, hc, hpc⟩ := ih h
      exact ⟨c, List.mem_cons_of_mem _ hc, hpc⟩

/-- The normal form of the final non-blank line against the right-stripped
reversed reply: if no line is non-blank the whole reply is whitespace, and
otherwise the first line of the whitespace-stripped reversed reply is the
right-trimmed final non-blank line, reversed. -/
lemma fnb_normal : ∀ (n : Nat) (reply : List Char), reply.length ≤ n →
    (match finalNonBlankLine reply with
     | none => reply.reverse.dropWhile pyIsSpace = []
     | some L => (reply.reverse.dropWhile pyIsSpace).takeWhile notNL =
         L.reverse.dropWhile pyIsSpace) := by
  intro n
  induction n with
  | zero =>
    intro reply hlen
    have : reply = [] := List.length_eq_zero.mp (Nat.le_zero.mp hlen)
    subst this
    simp [finalNonBlankLine, splitLines, List.find?]
  | succ n ih =>
    intro reply hlen
    by_cases hnl : '\n' ∈ reply
    · obtain ⟨f, rest, he, hf⟩ := firstNewline_decomp hnl
      subst he
      have hrev : (f ++ '\n' :: rest).reverse = rest.reverse ++ '\n' :: f.reverse := by
        rw [List.reverse_append, List.reverse_cons, List.append_assoc, List.singleton_append]
      have hsl : splitLines (f ++ '\n' :: rest) = f :: splitLines rest :=
        splitLines_append_cons rest hf
      have hfnb : finalNonBlankLine (f ++ '\n' :: rest) =
          ((splitLines rest).reverse.find? (fun L => !(L.all pyIsSpace))).or
            ([f].find? (fun L => !(L.all pyIsSpace))) := by
        unfold finalNonBlankLine
        rw [hsl, List.reverse_cons, List.find?_append]
      have hlen2 : rest.length ≤ n := by
        have := hlen
        rw [List.length_append, List.length_cons] at this
        omega
      have ihr := ih rest hlen2
      by_cases hws : rest.all pyIsSpace = true
      · have hdw : (f ++ '\n' :: rest).reverse.dropWhile pyIsSpace =
            f.reverse.dropWhile pyIsSpace := by
          rw [hrev]
          rw [dropWhile_append_all _ (fun c hc => List.all_eq_true.mp hws c (List.mem_reverse.mp hc))]
          rw [List.dropWhile_cons]
          have h9 : pyIsSpace '\n' = true := by decide
          rw [if_pos h9]
        have hnone : (splitLines rest).reverse.find? (fun L => !(L.all pyIsSpace)) = none := by
          apply List.find?_eq_none.mpr
          intro L hL
          have hall : L.all pyIsSpace = true := by
            apply List.all_eq_true.mpr
            intro c hc
            exact List.all_eq_true.mp hws c
              (mem_splitLines_subset rest L (List.mem_reverse.mp hL) c hc)
          simp [hall]
        by_cases hfws : f.all pyIsSpace = true
        · have hfind : [f].find? (fun L => !(L.all pyIsSpace)) = none := by
            simp [List.find?, hfws]
          have hall : finalNonBlankLine (f ++ '\n' :: rest) = none := by
            rw [hfnb, hnone, hfind]
            rfl
          rw [hall]
          show (f ++ '\n' :: rest).reverse.dropWhile pyIsSpace = []
          rw [hdw]
          apply List.dropWhile_eq_nil_iff.mpr
          intro c hc
          exact List.all_eq_true.mp hfws c (List.mem_reverse.mp hc)
        · have hF : f.all pyIsSpace = false := bool_of_not_true hfws
          have hfind : [f].find? (fun L => !(L.all pyIsSpace)) = some f := by
            simp [List.find?, hF]
          have hsome : finalNonBlankLine (f ++ '\n' :: rest) = some f := by
            rw [hfnb, hnone, hfind]
            rfl
          rw [hsome]
          show ((f ++ '\n' :: rest).reverse.dropWhile pyIsSpace).takeWhile notNL =
            f.reverse.dropWhile pyIsSpace
          rw [hdw]
          apply takeWhile_eq_self
          intro c hc
          apply notNL_iff.mpr
          intro e
          apply hf
          rw [← e]
          exact List.mem_reverse.mp (mem_of_mem_dropWhile hc)
      · have hF : rest.all pyIsSpace = false := bool_of_not_true hws
        have hex : ∃ c ∈ rest.reverse, pyIsSpace c = false := by
          obtain ⟨c, hc, hpc⟩ := exists_false_of_all_false hF
          exact ⟨c, List.mem_reverse.mpr hc, hpc⟩
        have hdw : (f ++ '\n' :: rest).reverse.dropWhile pyIsSpace =
            rest.reverse.dropWhile pyIsSpace ++ '\n' :: f.reverse := by
          rw [hrev]
          exact dropWhile_append_stop _ hex
        cases hfr : (splitLines rest).reverse.find? (fun L => !(L.all pyIsSpace)) with
        | none =>
          exfalso
          have hfnbrest : finalNonBlankLine rest = none := by
            unfold finalNonBlankLine
            exact hfr
          rw [hfnbrest] at ihr
          simp only at ihr
          obtain ⟨c, hc, hpc⟩ := hex
          have h10 : pyIsSpace c = true := List.dropWhile_eq_nil_iff.mp ihr c hc
          rw [h10] at hpc
          cases hpc
        | some L =>
          have hfnbrest : finalNonBlankLine rest = some L := by
            unfold finalNonBlankLine
            exact hfr
          rw [hfnbrest] at ihr
          simp only at ihr
          have hsome : finalNonBlankLine (f ++ '\n' :: rest) = some L := by
            rw [hfnb, hfr, Option.or_some]
          rw [hsome]
          show ((f ++ '\n' :: rest).reverse.dropWhile pyIsSpace).takeWhile notNL =
            L.reverse.dropWhile pyIsSpace
          rw [hdw, takeWhile_nnl_append]
          exact ihr
    · have hsl : splitLines reply = [reply] := splitLines_eq_single hnl
      have hrevsl : (splitLines reply).reverse = [reply] := by
        rw [hsl]
        rfl
      by_cases hws : reply.all pyIsSpace = true
      · have hall : finalNonBlankLine reply = none := by
          unfold finalNonBlankLine
          rw [hrevsl]
          simp [List.find?, hws]
        rw [hall]
        show reply.reverse.dropWhile pyIsSpace = []
        apply List.dropWhile_eq_nil_iff.mpr
        intro c hc
        exact List.all_eq_true.mp hws c (List.mem_reverse.mp hc)
      · have hF : reply.all pyIsSpace = false := bool_of_not_true hws
        have hsome : finalNonBlankLine reply = some reply := by
          unfold finalNonBlankLine
          rw [hrevsl]
          simp [List.find?, hF]
        rw [hsome]
        show (reply.reverse.dropWhile pyIsSpace).takeWhile notNL =
          reply.reverse.dropWhile pyIsSpace
        apply takeWhile_eq_self
        intro c hc
        apply notNL_iff.mpr
        intro e
        apply hnl
        rw [← e]
        exact List.mem_reverse.mp (mem_of_mem_dropWhile hc)

lemma takeWhile_ws_ext (x E : List Char) (hE : E.all pyIsSpace = true) :
    ∃ F, F.all pyIsSpace = true ∧ (x ++ E).takeWhile notNL = x.takeWhile notNL ++ F := by
  by_cases hx : ∀ c ∈ x, notNL c = true
  · refine ⟨E.takeWhile notNL, all_takeWhile_of_all hE, ?_⟩
    rw [takeWhile_append_of_all _ hx, takeWhile_eq_self hx]
  · push_neg at hx
    obtain ⟨c, hc, hpc⟩ := hx
    refine ⟨[], by simp, ?_⟩
    rw [List.append_nil]
    exact takeWhile_append_stop _ ⟨c, hc, bool_of_not_true hpc⟩

/-- `lang_match` (the last line of the stripped reply) sits inside the final
non-blank line of the reply, with only whitespace on both sides; when there is
no non-blank line at all, `lang_match` is empty. -/
lemma langMatch_pad (reply : List Char) :
    (finalNonBlankLine reply = none → langMatch reply = []) ∧
    (∀ L, finalNonBlankLine reply = some L → ∃ a b, a.all pyIsSpace = true ∧
      b.all pyIsSpace = true ∧ L = a ++ langMatch reply ++ b) := by
  have hlm : (langMatch reply).reverse = (pyStrip reply).reverse.takeWhile notNL := by
    unfold langMatch
    rw [lastLine_eq_rev, List.reverse_reverse]
  have h3 : rstrip reply = (rstrip reply).takeWhile pyIsSpace ++ pyStrip reply :=
    (List.takeWhile_append_dropWhile pyIsSpace (rstrip reply)).symm
  have hA : ∃ E, E.all pyIsSpace = true ∧
      reply.reverse.dropWhile pyIsSpace = (pyStrip reply).reverse ++ E := by
    refine ⟨((rstrip reply).takeWhile pyIsSpace).reverse, ?_, ?_⟩
    · rw [List.all_reverse]
      apply List.all_eq_true.mpr
      intro c hc
      exact List.mem_takeWhile_imp hc
    · calc reply.reverse.dropWhile pyIsSpace
          = (rstrip reply).reverse := (List.reverse_reverse _).symm
        _ = ((rstrip reply).takeWhile pyIsSpace ++ pyStrip reply).reverse := by rw [← h3]
        _ = (pyStrip reply).reverse ++ ((rstrip reply).takeWhile pyIsSpace).reverse := by
              rw [List.reverse_append]
  obtain ⟨E, hE, hAeq⟩ := hA
  have hTW : ∃ F, F.all pyIsSpace = true ∧
      (reply.reverse.dropWhile pyIsSpace).takeWhile notNL = (langMatch reply).reverse ++ F := by
    obtain ⟨F, hF, hFeq⟩ := takeWhile_ws_ext (pyStrip reply).reverse E hE
    refine ⟨F, hF, ?_⟩
    rw [hAeq, hFeq, hlm]
  constructor
  · intro hnone
    have hfn := fnb_normal reply.length reply le_rfl
    rw [hnone] at hfn
    simp only at hfn
    obtain ⟨F, hF, hFeq⟩ := hTW
    rw [hfn] at hFeq
    simp only [List.takeWhile_nil] at hFeq
    have h4 := (List.append_eq_nil.mp hFeq.symm).1
    have h5 := congrArg List.reverse h4
    rw [List.reverse_reverse] at h5
    simpa using h5
  · intro L hsome
    have hfn := fnb_normal reply.length reply le_rfl
    rw [hsome] at hfn
    simp only at hfn
    obtain ⟨F, hF, hFeq⟩ := hTW
    rw [hfn] at hFeq
    have hsplit : L.reverse = L.reverse.takeWhile pyIsSpace ++ L.reverse.dropWhile pyIsSpace :=
      (List.takeWhile_append_dropWhile pyIsSpace L.reverse).symm
    rw [hFeq] at hsplit
    refine ⟨F.reverse, (L.reverse.takeWhile pyIsSpace).reverse, ?_, ?_, ?_⟩
    · rw [List.all_reverse]
      exact hF
    · rw [List.all_reverse]
      apply List.all_eq_true.mpr
      intro c hc
      exact List.mem_takeWhile_imp hc
    · calc L = L.reverse.reverse := (List.reverse_reverse L).symm
        _ = (L.reverse.takeWhile pyIsSpace ++ ((langMatch reply).reverse ++ F)).reverse := by
              rw [← hsplit]
        _ = ((langMatch reply).reverse ++ F).reverse ++ (L.reverse.takeWhile pyIsSpace).reverse := by
              rw [List.reverse_append]
        _ = (F.reverse ++ (langMatch reply).reverse.reverse) ++ (L.reverse.takeWhile pyIsSpace).reverse := by
              rw [List.reverse_append]
        _ = F.reverse ++ langMatch reply ++ (L.reverse.takeWhile pyIsSpace).reverse := by
              rw [List.reverse_reverse]

/-- The bridge between the code's check (`token in lang_match`) and the
specification's reading (the final non-blank line contains the token), for any
nonempty whitespace-free token. -/
lemma marker_bridge {reply tok : List Char} (h0 : tok ≠ [])
    (h1 : tok.all (fun c => !pyIsSpace c) = true) :
    strContains (langMatch reply) tok = true ↔
      ∃ L, finalNonBlankLine reply = some L ∧ strContains L tok = true := by
  obtain ⟨hnone, hsome⟩ := langMatch_pad reply
  constructor
  · intro h
    rw [strContains_iff] at h
    cases hf : finalNonBlankLine reply with
    | none =>
      rw [hnone hf] at h
      exact absurd (infixNilEq h) h0
    | some L =>
      obtain ⟨a, b, ha, hb, hL⟩ := hsome L hf
      refine ⟨L, rfl, ?_⟩
      rw [strContains_iff, hL]
      exact h.trans (infixOfMiddle a _ b)
  · rintro ⟨L, hf, h⟩
    rw [strContains_iff] at h ⊢
    obtain ⟨a, b, ha, hb, hL⟩ := hsome L hf
    rw [hL] at h
    rw [infix_ws_right h0 h1 hb] at h
    rw [infix_ws_left h0 h1 ha] at h
    exact h

lemma tokML_ne_nil : tokML ≠ [] := by decide

lemma tokML_nonws : tokML.all (fun c => !pyIsSpace c) = true := by decide

lemma tokEN_ne_nil : tokEN ≠ [] := by decide

lemma tokEN_nonws : tokEN.all (fun c => !pyIsSpace c) = true := by decide

lemma pp_ml {reply : List Char} (h : strContains (langMatch reply) tokML = true) :
    chatPostProcess reply = (pyStrip (replaceAll tokML reply), "ml") := by
  simp [chatPostProcess, h]

lemma pp_en {reply : List Char} (h1 : strContains (langMatch reply) tokML = false)
    (h2 : strContains (langMatch reply) tokEN = true) :
    chatPostProcess reply = (pyStrip (replaceAll tokEN reply), "en") := by
  simp [chatPostProcess, h1, h2]

lemma pp_none {reply : List Char} (h1 : strContains (langMatch reply) tokML = false)
    (h2 : strContains (langMatch reply) tokEN = false) :
    chatPostProcess reply = (reply, "en") := by
  simp [chatPostProcess, h1, h2]

/-! ### Lemmas about `replaceAll` (Python `str.replace(tok, '')`) -/

lemma ra_nil (pat : List Char) : replaceAll pat [] = [] := rfl

lemma raGo_skip (pat : List Char) : ∀ (l : List Char) (k : Nat),
    raGo pat k l = raGo pat 0 (l.drop k) := by
  intro l
  induction l with
  | nil =>
    intro k
    cases k with
    | zero => rfl
    | succ k2 => rfl
  | cons c rest ih =>
    intro k
    cases k with
    | zero => rw [List.drop_zero]
    | succ k2 =>
      show raGo pat k2 rest = raGo pat 0 ((c :: rest).drop (k2 + 1))
      rw [List.drop_succ_cons]
      exact ih k2

lemma ra_neg {pat : List Char} {c : Char} {rest : List Char}
    (h : pat.isPrefixOf (c :: rest) = false) :
    replaceAll pat (c :: rest) = c :: replaceAll pat rest := by
  show raGo pat 0 (c :: rest) = c :: raGo pat 0 rest
  have hcond : ¬(pat ≠ [] ∧ pat.isPrefixOf (c :: rest) = true) := by
    rintro ⟨h1, h2⟩
    rw [h] at h2
    exact absurd h2 (by decide)
  show (if pat ≠ [] ∧ pat.isPrefixOf (c :: rest) = true then
      raGo pat (pat.length - 1) rest
    else
      c :: raGo pat 0 rest) = c :: raGo pat 0 rest
  rw [if_neg hcond]

lemma ra_pos (pat l : List Char) (h0 : pat ≠ []) (h : pat.isPrefixOf l = true) :
    replaceAll pat l = replaceAll pat (l.drop pat.length) := by
  cases pat with
  | nil => exact absurd rfl h0
  | cons a as =>
    cases l with
    | nil => simp [List.isPrefixOf] at h
    | cons c rest =>
      show raGo (a :: as) 0 (c :: rest) = raGo (a :: as) 0 ((c :: rest).drop (a :: as).length)
      have hstep : raGo (a :: as) 0 (c :: rest) = raGo (a :: as) ((a :: as).length - 1) rest := by
        show (if (a :: as) ≠ [] ∧ (a :: as).isPrefixOf (c :: rest) = true then
            raGo (a :: as) ((a :: as).length - 1) rest
          else
            c :: raGo (a :: as) 0 rest) = raGo (a :: as) ((a :: as).length - 1) rest
        rw [if_pos ⟨by simp, h⟩]
      rw [hstep, raGo_skip]
      rw [List.length_cons, List.drop_succ_cons]
      simp

lemma tokML_cons : tokML = '[' :: 'l' :: 'a' :: 'n' :: 'g' :: ':' :: 'm' :: 'l' :: ']' :: [] := by
  rfl

lemma tokEN_cons : tokEN = '[' :: 'l' :: 'a' :: 'n' :: 'g' :: ':' :: 'e' :: 'n' :: ']' :: [] := by
  rfl

lemma isPrefixOf_self_append (l t : List Char) : l.isPrefixOf (l ++ t) = true := by
  induction l with
  | nil => simp [List.isPrefixOf]
  | cons a as ih =>
    rw [List.cons_append, List.isPrefixOf_cons₂, beq_self_eq_true, Bool.true_and]
    exact ih

lemma replaceAll_bracketfree {u : List Char} (hu : '[' ∉ u) (w : List Char) :
    replaceAll tokML (u ++ w) = u ++ replaceAll tokML w := by
  induction u with
  | nil => simp
  | cons c u2 ih =>
    have hc : c ≠ '[' := fun e => hu (by simp [e])
    have hu2 : '[' ∉ u2 := fun m => hu (List.mem_cons_of_mem _ m)
    rw [List.cons_append]
    have hnp : tokML.isPrefixOf (c :: (u2 ++ w)) = false := by
      rw [tokML_cons, List.isPrefixOf_cons₂]
      have hbc : ('[' == c) = false := beq_eq_false_iff_ne.mpr (Ne.symm hc)
      rw [hbc, Bool.false_and]
    rw [ra_neg hnp, ih hu2, List.cons_append]

lemma replaceAll_tokML_head (s : List Char) :
    replaceAll tokML (tokML ++ s) = replaceAll tokML s := by
  rw [ra_pos tokML (tokML ++ s) tokML_ne_nil (isPrefixOf_self_append tokML s), List.drop_left]

lemma replaceAll_ml_en (v : List Char) :
    replaceAll tokML (tokEN ++ v) = tokEN ++ replaceAll tokML v := by
  rw [tokEN_cons]
  simp only [List.cons_append, List.nil_append]
  have h1 : tokML.isPrefixOf ('[' :: 'l' :: 'a' :: 'n' :: 'g' :: ':' :: 'e' :: 'n' :: ']' :: v) = false := by rfl
  have h2 : tokML.isPrefixOf ('l' :: 'a' :: 'n' :: 'g' :: ':' :: 'e' :: 'n' :: ']' :: v) = false := by rfl
  have h3 : tokML.isPrefixOf ('a' :: 'n' :: 'g' :: ':' :: 'e' :: 'n' :: ']' :: v) = false := by rfl
  have h4 : tokML.isPrefixOf ('n' :: 'g' :: ':' :: 'e' :: 'n' :: ']' :: v) = false := by rfl
  have h5 : tokML.isPrefixOf ('g' :: ':' :: 'e' :: 'n' :: ']' :: v) = false := by rfl
  have h6 : tokML.isPrefixOf (':' :: 'e' :: 'n' :: ']' :: v) = false := by rfl
  have h7 : tokML.isPrefixOf ('e' :: 'n' :: ']' :: v) = false := by rfl
  have h8 : tokML.isPrefixOf ('n' :: ']' :: v) = false := by rfl
  have h9 : tokML.isPrefixOf (']' :: v) = false := by rfl
  rw [ra_neg h1, ra_neg h2, ra_neg h3, ra_neg h4, ra_neg h5, ra_neg h6, ra_neg h7,
    ra_neg h8, ra_neg h9]

/-- An occurrence of `[lang:ml]` cannot overlap an occurrence of `[lang:en]`:
if the whole string starts with `[lang:ml]` and also decomposes around
`[lang:en]`, the `[lang:en]` occurrence lies beyond the `[lang:ml]` prefix. -/
lemma ml_en_align : ∀ (u w t : List Char), u ++ tokEN ++ w = tokML ++ t →
    ∃ u2, u = tokML ++ u2 ∧ t = u2 ++ tokEN ++ w := by
  intro u w t h
  rcases u with _ | ⟨a0, u⟩
  · simp [tokML_cons, tokEN_cons, List.cons_append, List.nil_append, List.cons.injEq] at h
  rcases u with _ | ⟨a1, u⟩
  · simp [tokML_cons, tokEN_cons, List.cons_append, List.nil_append, List.cons.injEq] at h
  rcases u with _ | ⟨a2, u⟩
  · simp [tokML_cons, tokEN_cons, List.cons_append, List.nil_append, List.cons.injEq] at h
  rcases u with _ | ⟨a3, u⟩
  · simp [tokML_cons, tokEN_cons, List.cons_append, List.nil_append, List.cons.injEq] at h
  rcases u with _ | ⟨a4, u⟩
  · simp [tokML_cons, tokEN_cons, List.cons_append, List.nil_append, List.cons.injEq] at h
  rcases u with _ | ⟨a5, u⟩
  · simp [tokML_cons, tokEN_cons, List.cons_append, List.nil_append, List.cons.injEq] at h
  rcases u with _ | ⟨a6, u⟩
  · simp [tokML_cons, tokEN_cons, List.cons_append, List.nil_append, List.cons.injEq] at h
  rcases u with _ | ⟨a7, u⟩
  · simp [tokML_cons, tokEN_cons, List.cons_append, List.nil_append, List.cons.injEq] at h
  rcases u with _ | ⟨a8, u⟩
  · simp [tokML_cons, tokEN_cons, List.cons_append, List.nil_append, List.cons.injEq] at h
  · simp only [tokML_cons, List.cons_append, List.nil_append, List.append_assoc,
      List.cons.injEq] at h
    obtain ⟨e0, e1, e2, e3, e4, e5, e6, e7, e8, htail⟩ := h
    subst e0
    subst e1
    subst e2
    subst e3
    subst e4
    subst e5
    subst e6
    subst e7
    subst e8
    refine ⟨u, by rw [tokML_cons]; rfl, ?_⟩
    rw [List.append_assoc]
    exact htail.symm

/-- Deleting `[lang:ml]` occurrences never destroys an `[lang:en]`
occurrence. -/
lemma replaceAll_keeps_en : ∀ (n : Nat) (l u v : List Char), l.length ≤ n →
    l = u ++ tokEN ++ v → tokEN <:+: replaceAll tokML l := by
  intro n
  induction n with
  | zero =>
    intro l u v hlen heq
    have hl : l = [] := List.length_eq_zero.mp (Nat.le_zero.mp hlen)
    subst hl
    exfalso
    rcases List.append_eq_nil.mp heq.symm with ⟨h1, h2⟩
    rcases List.append_eq_nil.mp h1 with ⟨h3, h4⟩
    exact tokEN_ne_nil h4
  | succ n ih =>
    intro l u v hlen heq
    cases hP : tokML.isPrefixOf l with
    | true =>
      obtain ⟨t, ht⟩ := isPrefixOf_decomp.mp hP
      have halign : ∃ u2, u = tokML ++ u2 ∧ t = u2 ++ tokEN ++ v := by
        apply ml_en_align
        rw [← heq]
        exact ht
      obtain ⟨u2, hu2, ht2⟩ := halign
      rw [ra_pos tokML l tokML_ne_nil hP]
      have hdrop : l.drop tokML.length = t := by
        rw [ht, List.drop_left]
      rw [hdrop]
      have hlent : t.length ≤ n := by
        have hx1 : l.length = tokML.length + t.length := by
          rw [ht, List.length_append]
        have hx2 : tokML.length = 9 := by decide
        omega
      exact ih t u2 v hlent ht2
    | false =>
      cases u with
      | nil =>
        rw [List.nil_append] at heq
        rw [heq, replaceAll_ml_en]
        exact ⟨[], replaceAll tokML v, by rw [List.nil_append]⟩
      | cons c u2 =>
        have heq2 : l = c :: (u2 ++ tokEN ++ v) := by
          rw [heq, List.cons_append, List.cons_append]
        rw [heq2] at hP
        rw [heq2, ra_neg hP]
        have hlen2 : (u2 ++ tokEN ++ v).length ≤ n := by
          rw [heq2, List.length_cons] at hlen
          omega
        exact infixConsOf c (ih (u2 ++ tokEN ++ v) u2 v hlen2 rfl)

/-! ### Each split line occurs inside the original string -/

lemma splitLines_head_and_mem : ∀ (z : List Char),
    (∀ L ∈ splitLines z, L <:+: z) ∧ ((splitLines z).headD []) <+: z := by
  intro z
  induction z with
  | nil =>
    constructor
    · intro L hL
      simp [splitLines] at hL
      subst hL
      exact ⟨[], [], rfl⟩
    · exact ⟨[], rfl⟩
  | cons c rest ih =>
    by_cases hc : c = '\n'
    · subst hc
      rw [splitLines_cons_nl]
      constructor
      · intro L hL
        rcases List.mem_cons.mp hL with e | m
        · subst e
          exact ⟨[], '\n' :: rest, rfl⟩
        · exact infixConsOf '\n' ((ih.1) L m)
      · exact ⟨'\n' :: rest, rfl⟩
    · obtain ⟨l, ls, hv, hcv⟩ := splitLines_cons_of_ne c rest hc
      rw [hcv]
      have hhead : l <+: rest := by
        have h2 := ih.2
        rw [hv] at h2
        simpa using h2
      constructor
      · intro L hL
        rcases List.mem_cons.mp hL with e | m
        · subst e
          obtain ⟨t, htp⟩ := hhead
          exact prefixToInfix ⟨t, by rw [List.cons_append, htp]⟩
        · have hm2 : L ∈ splitLines rest := by
            rw [hv]
            exact List.mem_cons_of_mem _ m
          exact infixConsOf c (ih.1 L hm2)
      · obtain ⟨t, htp⟩ := hhead
        refine ⟨t, ?_⟩
        show (c :: l) ++ t = c :: rest
        rw [List.cons_append, htp]

lemma fnb_line_infix {reply L : List Char} (h : finalNonBlankLine reply = some L) :
    L <:+: reply := by
  have hm : L ∈ (splitLines reply).reverse := List.mem_of_find?_eq_some h
  exact (splitLines_head_and_mem reply).1 L (List.mem_reverse.mp hm)

lemma infix_pyStrip {z tok : List Char} (h0 : tok ≠ [])
    (h1 : tok.all (fun c => !pyIsSpace c) = true) (h : tok <:+: z) :
    tok <:+: pyStrip z := by
  obtain ⟨a, b, ha, hb, hz⟩ := strip_decomp z
  rw [hz] at h
  rw [infix_ws_right h0 h1 hb] at h
  rw [infix_ws_left h0 h1 ha] at h
  exact h

/-! ### Characterization of the terminal document loader -/

lemma processPages_acc (acc : List Char) (ps : List (Option (List Char))) :
    Chatbot.processPages acc ps =
      (acc ++ (Chatbot.processPages [] ps).1, (Chatbot.processPages [] ps).2) := by
  induction ps generalizing acc with
  | nil => simp [Chatbot.processPages]
  | cons pg rest ih =>
    cases pg with
    | none => simp [Chatbot.processPages]
    | some t =>
      show Chatbot.processPages (acc ++ t ++ ['\n']) rest = _
      rw [ih (acc ++ t ++ ['\n'])]
      have h2 : Chatbot.processPages [] (some t :: rest) =
          Chatbot.processPages (t ++ ['\n']) rest := by
        show Chatbot.processPages ([] ++ t ++ ['\n']) rest = _
        rw [List.nil_append]
      rw [h2, ih (t ++ ['\n'])]
      simp [List.append_assoc]

lemma extractGo_eq (acc : List Char) (files : List Chatbot.PdfFile) :
    Chatbot.extractGo acc files =
      (acc ++ (files.map Chatbot.fileText).flatten, files.map Chatbot.fileOk) := by
  induction files generalizing acc with
  | nil => simp [Chatbot.extractGo]
  | cons f rest ih =>
    cases f with
    | unreadable =>
      show (let r := Chatbot.extractGo acc rest; (r.1, false :: r.2)) = _
      rw [ih acc]
      simp [Chatbot.fileText, Chatbot.fileOk]
    | doc pages =>
      show (let fr := Chatbot.processPages acc pages
            let r := Chatbot.extractGo fr.1 rest
            (r.1, fr.2 :: r.2)) = _
      rw [processPages_acc acc pages]
      simp only
      rw [ih (acc ++ (Chatbot.processPages [] pages).1)]
      simp [Chatbot.fileText, Chatbot.fileOk, List.append_assoc]

lemma chatPostProcess_lang (reply : List Char) :
    (chatPostProcess reply).2 = "en" ∨ (chatPostProcess reply).2 = "ml" := by
  simp only [chatPostProcess]
  split
  · exact Or.inr rfl
  · split
    · exact Or.inl rfl
    · exact Or.inl rfl

/-! ### Claim theorems -/

set_option maxRecDepth 16384 in
/-- C1 counterexample: the claim fails on the web variant — the system
instruction is not a prefix of (indeed, no part of) the prompt actually sent —
and on the terminal variant the prompt contains no marker-token instruction
at all (no occurrence of `[lang:`). -/
theorem c1_counterexample :
    App.systemPromptWeb.isPrefixOf (App.promptSentWeb (("K").data) (("Q").data)) = false ∧
    strContains (Chatbot.promptSentTerminal (("K").data) (("Q").data)) (("[lang:").data) = false := by
  constructor
  · rfl
  · decide

/-- C1 (amended): the terminal variant's prompt is its fixed system
instruction (which has no marker-token rule), two newlines, the delimited
context block holding the knowledge string verbatim, and the user's query;
the web variant's prompt is only the delimited context block followed by the
query — its system instruction is built but never sent. -/
theorem c1_amended_prompt_composition (context user_query : List Char) :
    Chatbot.promptSentTerminal context user_query =
      Chatbot.systemPromptTerminal ++ (("\n\n").data) ++
        (("CONTEXT FROM DOCUMENTS:\n---\n").data) ++ context ++
        (("\n---\n\nFARMER\x27S QUERY:\n").data) ++ user_query ∧
    App.promptSentWeb context user_query =
      (("CONTEXT FROM DOCUMENTS:\n---\n").data) ++ context ++
        (("\n---\n\nFARMER\x27S QUERY:\n").data) ++ user_query := by
  constructor
  · show Chatbot.systemPromptTerminal ++ (("\n\n").data) ++ App.full_prompt context user_query = _
    unfold App.full_prompt
    simp [List.append_assoc]
  · rfl

/-- C2 counterexample: when the terminal variant's generation call raises,
the fallback apology it returns carries no language marker at all, so the
claim that both variants return an apology already tagged with the default
marker is false. -/
theorem c2_counterexample :
    Chatbot.get_gemini_response (fun p => none) (("hi").data) (("k").data) =
      Chatbot.apologyTerminal ∧
    strContains Chatbot.apologyTerminal (("[lang:").data) = false ∧
    strContains App.apologyWeb tokEN = true := by
  refine ⟨rfl, ?_, ?_⟩
  · decide
  · decide

/-- C2 (amended): on any exception from the generation call each variant
returns its fixed apology string instead of propagating the error; the web
variant's apology is tagged `[lang:en]`, the terminal variant's carries no
marker. -/
theorem c2_amended_fallback_apology (llmW llmT : List Char → Option (List Char))
    (qW ctxW qT ctxT : List Char)
    (hW : llmW (App.promptSentWeb ctxW qW) = none)
    (hT : llmT (Chatbot.promptSentTerminal ctxT qT) = none) :
    App.get_gemini_response llmW qW ctxW = App.apologyWeb ∧
    Chatbot.get_gemini_response llmT qT ctxT = Chatbot.apologyTerminal ∧
    strContains App.apologyWeb tokEN = true ∧
    strContains Chatbot.apologyTerminal tokEN = false := by
  refine ⟨?_, ?_, by decide, by decide⟩
  · unfold App.get_gemini_response
    rw [hW]
  · unfold Chatbot.get_gemini_response
    rw [hT]

/-- C2 witness: a concrete always-raising generation call. -/
theorem c2_witness :
    (fun p => (none : Option (List Char))) (App.promptSentWeb [] []) = none ∧
    App.get_gemini_response (fun p => none) [] [] = App.apologyWeb ∧
    Chatbot.get_gemini_response (fun p => none) [] [] = Chatbot.apologyTerminal ∧
    strContains App.apologyWeb tokEN = true ∧
    strContains Chatbot.apologyTerminal tokEN = false :=
  ⟨rfl, c2_amended_fallback_apology (fun p => none) (fun p => none) [] [] [] [] rfl rfl⟩

/-- C3 counterexample: on a document whose middle page has no extractable
text, the terminal loader keeps only the text before that page and reports
the file as failed, while the claim-described loader (which skips such pages)
would return both pages' text and report success. -/
theorem c3_counterexample :
    Chatbot.extract_text_from_pdfs
        [Chatbot.PdfFile.doc [some (("A").data), none, some (("B").data)]] =
      ((("A\n").data), [false]) ∧
    Chatbot.extractSkipping []
        [Chatbot.PdfFile.doc [some (("A").data), none, some (("B").data)]] =
      ((("A\nB\n").data), [true]) ∧
    Chatbot.extract_text_from_pdfs
        [Chatbot.PdfFile.doc [some (("A").data), none, some (("B").data)]] ≠
      Chatbot.extractSkipping []
        [Chatbot.PdfFile.doc [some (("A").data), none, some (("B").data)]] := by
  refine ⟨?_, ?_, ?_⟩
  · decide
  · decide
  · decide

/-- C3 (amended): in the terminal loader a page with no extractable text is
not skipped — it stops that file's extraction (text of its earlier pages is
kept) and the file is reported failed; page texts are concatenated with a
newline after each page; files contribute independently, so a missing or
unreadable file contributes nothing, is reported failed, and does not abort
the batch. -/
theorem c3_amended_loader_behavior (files : List Chatbot.PdfFile) :
    Chatbot.extract_text_from_pdfs files =
      ((files.map Chatbot.fileText).flatten, files.map Chatbot.fileOk) := by
  unfold Chatbot.extract_text_from_pdfs
  rw [extractGo_eq]
  simp

/-- C4: if the final non-blank line of the reply contains `[lang:ml]`, the
post-processor returns language `ml` and the reply with every occurrence of
that literal token removed and surrounding whitespace trimmed; symmetrically
(as the source's `elif`), a final non-blank line containing `[lang:en]` but
not `[lang:ml]` yields `en` with that token removed and trimmed. -/
theorem c4_marker_postprocessing :
    (∀ reply L, finalNonBlankLine reply = some L → strContains L tokML = true →
      chatPostProcess reply = (pyStrip (replaceAll tokML reply), "ml")) ∧
    (∀ reply L, finalNonBlankLine reply = some L → strContains L tokEN = true →
      strContains L tokML = false →
      chatPostProcess reply = (pyStrip (replaceAll tokEN reply), "en")) := by
  constructor
  · intro reply L hfnb hml
    exact pp_ml ((marker_bridge tokML_ne_nil tokML_nonws).mpr ⟨L, hfnb, hml⟩)
  · intro reply L hfnb hen hml
    have h1 : strContains (langMatch reply) tokML = false := by
      cases hb : strContains (langMatch reply) tokML with
      | false => rfl
      | true =>
        obtain ⟨L2, hfnb2, hml2⟩ := (marker_bridge tokML_ne_nil tokML_nonws).mp hb
        rw [hfnb] at hfnb2
        injection hfnb2 with he
        rw [← he] at hml2
        rw [hml] at hml2
        exact absurd hml2 (by decide)
    have h2 : strContains (langMatch reply) tokEN = true :=
      (marker_bridge tokEN_ne_nil tokEN_nonws).mpr ⟨L, hfnb, hen⟩
    exact pp_en h1 h2

/-- C4 witness: both marker branches evaluated on concrete replies. -/
theorem c4_witness :
    finalNonBlankLine (("Hi\n[lang:ml]").data) = some (("[lang:ml]").data) ∧
    strContains (("[lang:ml]").data) tokML = true ∧
    chatPostProcess (("Hi\n[lang:ml]").data) = ((("Hi").data), "ml") ∧
    chatPostProcess (("Ok\n[lang:en]").data) = ((("Ok").data), "en") := by
  refine ⟨by decide, by decide, ?_, ?_⟩
  · have h := (c4_marker_postprocessing).1 (("Hi\n[lang:ml]").data) (("[lang:ml]").data)
      (by decide) (by decide)
    rw [h]
    decide
  · have h := (c4_marker_postprocessing).2 (("Ok\n[lang:en]").data) (("[lang:en]").data)
      (by decide) (by decide) (by decide)
    rw [h]
    decide

lemma tokML_no_nl : '\n' ∉ tokML := by decide

lemma bracket_mem_tokML : '[' ∈ tokML := by decide

lemma nonblank_of_bracket {L : List Char} (h : '[' ∈ L) :
    (!(L.all pyIsSpace)) = true := by
  have hall : L.all pyIsSpace = false := by
    cases hb : L.all pyIsSpace with
    | false => rfl
    | true => exact absurd (List.all_eq_true.mp hb '[' h) (by decide)
  rw [hall]
  rfl

lemma replaceAll_bracketfree_id {s : List Char} (hs : '[' ∉ s) :
    replaceAll tokML s = s := by
  have h := replaceAll_bracketfree hs []
  rw [List.append_nil, ra_nil, List.append_nil] at h
  exact h

lemma splitLines_last_of_no_nl (x : List Char) {y : List Char} (hy : '\n' ∉ y) :
    ∃ pre, splitLines (x ++ '\n' :: y) = pre ++ [y] := by
  induction x with
  | nil =>
    rw [List.nil_append, splitLines_cons_nl, splitLines_eq_single hy]
    exact ⟨[[]], rfl⟩
  | cons c x2 ih =>
    by_cases hc : c = '\n'
    · subst hc
      rw [List.cons_append, splitLines_cons_nl]
      obtain ⟨pre2, hpre2⟩ := ih
      rw [hpre2]
      exact ⟨[] :: pre2, rfl⟩
    · rw [List.cons_append]
      obtain ⟨l, ls, hv, hcv⟩ := splitLines_cons_of_ne c (x2 ++ '\n' :: y) hc
      obtain ⟨pre2, hpre2⟩ := ih
      rw [hcv]
      cases pre2 with
      | nil =>
        exfalso
        have h2 := two_le_splitLines (show '\n' ∈ x2 ++ '\n' :: y by simp)
        rw [hpre2] at h2
        simp at h2
      | cons q qs =>
        have hcomb : l :: ls = q :: (qs ++ [y]) := by
          rw [← hv, hpre2, List.cons_append]
        injection hcomb with e1 e2
        refine ⟨(c :: l) :: qs, ?_⟩
        rw [e2, List.cons_append]

/-- C5: the marker check is a substring match on the last line, not an
equality check: a reply whose last line carries text before and after the
token still matches, and only the token text itself is deleted — every other
character of that line survives into the returned text (up to the final
strip). -/
theorem c5_substring_match (hd p s : List Char)
    (hpn : '\n' ∉ p) (hpb : '[' ∉ p) (hsn : '\n' ∉ s) (hsb : '[' ∉ s)
    (hb : '[' ∉ hd) (hcontent : p ≠ [] ∨ s ≠ []) :
    chatPostProcess (hd ++ p ++ tokML ++ s) = (pyStrip (hd ++ p ++ s), "ml") := by
  have hT_nonl : '\n' ∉ p ++ (tokML ++ s) := by
    intro m
    rcases List.mem_append.mp m with m1 | m2
    · exact hpn m1
    · rcases List.mem_append.mp m2 with m3 | m4
      · exact tokML_no_nl m3
      · exact hsn m4
  have hfnbc : ∃ L, finalNonBlankLine (hd ++ p ++ tokML ++ s) = some L ∧
      strContains L tokML = true := by
    by_cases hnl : '\n' ∈ hd
    · obtain ⟨u, v, he, hv⟩ := lastNewline_decomp hnl
      have hreply : hd ++ p ++ tokML ++ s = u ++ '\n' :: (v ++ (p ++ (tokML ++ s))) := by
        rw [he]
        simp [List.append_assoc, List.cons_append]
      have hnl2 : '\n' ∉ v ++ (p ++ (tokML ++ s)) := by
        intro m
        rcases List.mem_append.mp m with m1 | m2
        · exact hv m1
        · exact hT_nonl m2
      obtain ⟨pre, hpre⟩ := splitLines_last_of_no_nl u hnl2
      have hbkt : '[' ∈ v ++ (p ++ (tokML ++ s)) := by
        apply List.mem_append.mpr
        apply Or.inr
        apply List.mem_append.mpr
        apply Or.inr
        apply List.mem_append.mpr
        exact Or.inl bracket_mem_tokML
      refine ⟨v ++ (p ++ (tokML ++ s)), ?_, ?_⟩
      · unfold finalNonBlankLine
        rw [hreply, hpre, List.reverse_append]
        rw [show ([v ++ (p ++ (tokML ++ s))] : List (List Char)).reverse =
          [v ++ (p ++ (tokML ++ s))] from rfl]
        rw [List.singleton_append, List.find?_cons, nonblank_of_bracket hbkt]
      · rw [strContains_iff]
        exact ⟨v ++ p, s, by simp [List.append_assoc]⟩
    · have hnr : '\n' ∉ hd ++ p ++ tokML ++ s := by
        intro m
        rcases List.mem_append.mp m with m1 | m2
        · rcases List.mem_append.mp m1 with m3 | m4
          · rcases List.mem_append.mp m3 with m5 | m6
            · exact hnl m5
            · exact hpn m6
          · exact tokML_no_nl m4
        · exact hsn m2
      have hbkt : '[' ∈ hd ++ p ++ tokML ++ s := by
        apply List.mem_append.mpr
        apply Or.inl
        apply List.mem_append.mpr
        exact Or.inr bracket_mem_tokML
      refine ⟨hd ++ p ++ tokML ++ s, ?_, ?_⟩
      · unfold finalNonBlankLine
        rw [splitLines_eq_single hnr]
        rw [show ([hd ++ p ++ tokML ++ s] : List (List Char)).reverse =
          [hd ++ p ++ tokML ++ s] from rfl]
        rw [List.find?_cons, nonblank_of_bracket hbkt]
      · rw [strContains_iff]
        exact ⟨hd ++ p, s, rfl⟩
  obtain ⟨L, hfnb, hcont⟩ := hfnbc
  have hbr := (marker_bridge tokML_ne_nil tokML_nonws).mpr ⟨L, hfnb, hcont⟩
  have hpp := pp_ml hbr
  have hbr2 : '[' ∉ hd ++ p := by
    intro m
    rcases List.mem_append.mp m with m1 | m2
    · exact hb m1
    · exact hpb m2
  have hrepl : replaceAll tokML (hd ++ p ++ tokML ++ s) = hd ++ p ++ s := by
    have h1 : hd ++ p ++ tokML ++ s = (hd ++ p) ++ (tokML ++ s) := by
      rw [List.append_assoc]
    rw [h1, replaceAll_bracketfree hbr2 (tokML ++ s), replaceAll_tokML_head s,
      replaceAll_bracketfree_id hsb]
  rw [hpp, hrepl]

/-- C5 witness: a last line with content on both sides of the token. -/
theorem c5_witness :
    ('\n' ∉ (("ok ").data) ∧ '[' ∉ (("ok ").data)) ∧
    chatPostProcess ((("Yes.\n").data) ++ (("ok ").data) ++ tokML ++ ((" done").data)) =
      (pyStrip ((("Yes.\n").data) ++ (("ok ").data) ++ ((" done").data)), "ml") :=
  ⟨⟨by decide, by decide⟩,
   c5_substring_match (("Yes.\n").data) (("ok ").data) ((" done").data)
     (by decide) (by decide) (by decide) (by decide) (by decide) (Or.inl (by decide))⟩

/-- C6: a reply whose final non-blank line contains neither marker token is
returned with language `en` and its text completely unchanged — not even
trimmed. -/
theorem c6_no_marker_unchanged (reply : List Char)
    (h : noMarkerInFinalLine reply = true) :
    chatPostProcess reply = (reply, "en") := by
  have hml : strContains (langMatch reply) tokML = false := by
    cases hb : strContains (langMatch reply) tokML with
    | false => rfl
    | true =>
      obtain ⟨L, hfnb, htok⟩ := (marker_bridge tokML_ne_nil tokML_nonws).mp hb
      unfold noMarkerInFinalLine at h
      rw [hfnb] at h
      simp only [Bool.and_eq_true, Bool.not_eq_true'] at h
      rw [h.1] at htok
      exact absurd htok (by decide)
  have hen : strContains (langMatch reply) tokEN = false := by
    cases hb : strContains (langMatch reply) tokEN with
    | false => rfl
    | true =>
      obtain ⟨L, hfnb, htok⟩ := (marker_bridge tokEN_ne_nil tokEN_nonws).mp hb
      unfold noMarkerInFinalLine at h
      rw [hfnb] at h
      simp only [Bool.and_eq_true, Bool.not_eq_true'] at h
      rw [h.2] at htok
      exact absurd htok (by decide)
  exact pp_none hml hen

/-- C6 witness: a marker-free reply passes through untouched. -/
theorem c6_witness :
    noMarkerInFinalLine (("Hello there.\nBye.  ").data) = true ∧
    chatPostProcess (("Hello there.\nBye.  ").data) = ((("Hello there.\nBye.  ").data), "en") :=
  ⟨by decide, c6_no_marker_unchanged (("Hello there.\nBye.  ").data) (by decide)⟩

/-- C7 counterexample: a body with a present but empty `query` field is
rejected with status 400, so "if `query` is present the handler returns
status 200" is false as stated. -/
theorem c7_counterexample :
    (App.chat [] (fun p => none) (some (JVal.jstr []))).2 =
      (400, ChatPayload.errorField App.errNoQuery) ∧
    some (JVal.jstr []) ≠ (none : Option JVal) ∧
    (App.chat [] (fun p => none) (some (JVal.jstr []))).2.1 ≠ 200 := by
  refine ⟨rfl, by simp, by decide⟩

/-- C7 (amended): `POST /chat` returns 400 with an `error` payload when the
`query` field is absent or falsy, and otherwise 200 with a payload holding
exactly a `response` string and a `lang` that is `"en"` or `"ml"`. -/
theorem c7_amended_chat_endpoint (pdf_context : List Char)
    (llm : List Char → Option (List Char)) (queryField : Option JVal) :
    (pyTruthy queryField = false →
      (App.chat pdf_context llm queryField).2 = (400, ChatPayload.errorField App.errNoQuery)) ∧
    (pyTruthy queryField = true →
      ∃ text lang, (App.chat pdf_context llm queryField).2 = (200, ChatPayload.okFields text lang) ∧
        (lang = "en" ∨ lang = "ml")) := by
  constructor
  · intro h
    simp [App.chat, h]
  · intro h
    refine ⟨(chatPostProcess (App.get_gemini_response llm (pyToString queryField) pdf_context)).1,
      (chatPostProcess (App.get_gemini_response llm (pyToString queryField) pdf_context)).2,
      ?_, chatPostProcess_lang _⟩
    simp [App.chat, h]

/-- C7 witness: both arms exercised at concrete requests, with an identity
LLM oracle. -/
theorem c7_witness :
    pyTruthy (some (JVal.jstr ('h' :: 'i' :: []))) = true ∧
    (∃ text lang, (App.chat [] (fun p => some p) (some (JVal.jstr ('h' :: 'i' :: [])))).2 =
        (200, ChatPayload.okFields text lang) ∧ (lang = "en" ∨ lang = "ml")) ∧
    pyTruthy (none : Option JVal) = false ∧
    (App.chat [] (fun p => some p) (none : Option JVal)).2 =
      (400, ChatPayload.errorField App.errNoQuery) :=
  ⟨by decide,
   (c7_amended_chat_endpoint [] (fun p => some p) (some (JVal.jstr ('h' :: 'i' :: [])))).2 (by decide),
   by decide,
   (c7_amended_chat_endpoint [] (fun p => some p) (none : Option JVal)).1 (by decide)⟩

/-- C8: no execution of the web chat handler or of the terminal loop body
changes the knowledge context — the shallow embedding threads the shared
string through every return site, and it always comes back unchanged. -/
theorem c8_context_immutable (pdf_context : List Char)
    (llm : List Char → Option (List Char)) (queryField : Option JVal)
    (knowledge_context : List Char) (llm2 : List Char → Option (List Char))
    (inp : Chatbot.TurnInput) :
    (App.chat pdf_context llm queryField).1 = pdf_context ∧
    (Chatbot.mainLoopTurn knowledge_context llm2 inp).1 = knowledge_context := by
  constructor
  · by_cases h : pyTruthy queryField = false
    · simp [App.chat, h]
    · simp [App.chat, h]
  · cases inp with
    | exitInput => rfl
    | speak heard =>
      cases heard with
      | none => rfl
      | some ql =>
        cases ql with
        | mk q l => rfl
    | typed q det => rfl

/-- C9: when the final non-blank line contains both markers, the Malayalam
branch wins: the language is `ml`, only the literal `[lang:ml]` occurrences
are deleted (then the text is stripped), and an `[lang:en]` occurrence is
still present in the returned text. -/
theorem c9_marker_priority (reply L : List Char)
    (hfnb : finalNonBlankLine reply = some L)
    (hml : strContains L tokML = true) (hen : strContains L tokEN = true) :
    chatPostProcess reply = (pyStrip (replaceAll tokML reply), "ml") ∧
    strContains (chatPostProcess reply).1 tokEN = true := by
  have hbr := (marker_bridge tokML_ne_nil tokML_nonws).mpr ⟨L, hfnb, hml⟩
  have hpp := pp_ml hbr
  refine ⟨hpp, ?_⟩
  rw [hpp]
  show strContains (pyStrip (replaceAll tokML reply)) tokEN = true
  rw [strContains_iff]
  have hLr : L <:+: reply := fnb_line_infix hfnb
  have hEr : tokEN <:+: reply := (strContains_iff.mp hen).trans hLr
  obtain ⟨u, v, huv⟩ := hEr
  have hkeep : tokEN <:+: replaceAll tokML reply :=
    replaceAll_keeps_en reply.length reply u v le_rfl huv.symm
  exact infix_pyStrip tokEN_ne_nil tokEN_nonws hkeep

/-- C9 witness: a last line holding both tokens. -/
theorem c9_witness :
    finalNonBlankLine (("Hi [lang:ml] x [lang:en]").data) =
      some (("Hi [lang:ml] x [lang:en]").data) ∧
    chatPostProcess (("Hi [lang:ml] x [lang:en]").data) = ((("Hi  x [lang:en]").data), "ml") ∧
    strContains (chatPostProcess (("Hi [lang:ml] x [lang:en]").data)).1 tokEN = true := by
  have h := c9_marker_priority (("Hi [lang:ml] x [lang:en]").data)
    (("Hi [lang:ml] x [lang:en]").data) (by decide) (by decide) (by decide)
  refine ⟨by decide, ?_, h.2⟩
  rw [h.1]
  decide

/-- C10: presence of the `query` key is not enough — the handler's guard is
Python truthiness, so an empty string, null, `false` or `0` as the value is
rejected with 400 and an `error` field exactly like an absent key. -/
theorem c10_falsy_query_rejected (pdf_context : List Char)
    (llm : List Char → Option (List Char)) (queryField : Option JVal)
    (h : pyTruthy queryField = false) :
    (App.chat pdf_context llm queryField).2 = (400, ChatPayload.errorField App.errNoQuery) := by
  simp [App.chat, h]

/-- C10 witness: empty string, null, and an absent key all rejected. -/
theorem c10_witness :
    pyTruthy (some (JVal.jstr [])) = false ∧
    pyTruthy (some JVal.jnull) = false ∧
    pyTruthy (none : Option JVal) = false ∧
    (App.chat [] (fun p => none) (some (JVal.jstr []))).2 =
      (400, ChatPayload.errorField App.errNoQuery) ∧
    (App.chat [] (fun p => none) (some JVal.jnull)).2 =
      (400, ChatPayload.errorField App.errNoQuery) ∧
    (App.chat [] (fun p => none) (none : Option JVal)).2 =
      (400, ChatPayload.errorField App.errNoQuery) :=
  ⟨by decide, by decide, by decide,
   c10_falsy_query_rejected [] (fun p => none) (some (JVal.jstr [])) (by decide),
   c10_falsy_query_rejected [] (fun p => none) (some JVal.jnull) (by decide),
   c10_falsy_query_rejected [] (fun p => none) (none : Option JVal) (by decide)⟩
